import Mathlib

/-!
Verification of the MemoryInk image-metadata note codec.

The development shallowly embeds the codec modules of the repository:
the server-side codec (`src/utils/imageProcessor`-style module: embed and
extract for PNG and JPEG plus the format dispatchers), the client-side
codec (the piexif/png-chunks based functions of `src/frontend/lib`), the
CLI extractor, and the two note ciphers (Node crypto on the server,
CryptoJS on the client).

Modelling conventions:
  * a JavaScript string is `List Char`; a byte buffer is `List Nat`
    (values kept below 256 where the code guarantees it);
  * file reading and the byte-level PNG (de)serialisation done by the
    `png-chunks-extract` / `png-chunks-encode` libraries are abstracted:
    a PNG image is its ordered chunk list, and a read/parse failure is
    the `none` case of an `Option` input;
  * the `png-chunk-text` library's `encode`/`decode` are translated from
    their sources (Latin-1 restriction, NUL handling, tEXt layout);
  * exceptions are `Except`; a `try/catch` in the source becomes a
    `match` on the `Except` value;
  * cryptographic primitives (PBKDF2, EVP_BytesToKey, AES-GCM, the
    CryptoJS CBC mode) are modelled as ideal primitives: key derivation
    is an injective function of its inputs, and an authenticated
    ciphertext records the key, iv, associated data and plaintext that
    produced it, with decryption succeeding exactly on a matching tag.
-/

/-- JavaScript string, as its sequence of characters. -/
abbrev Str := List Char

/-- Byte buffer. -/
abbrev Bytes := List Nat

/-- Generic JavaScript runtime exception (the particular message is not
tracked; the codec code only distinguishes thrown from not thrown). -/
inductive JsError
  | exn
deriving DecidableEq, Repr

/-- Errors surfaced by the codec layer, following the spec's taxonomy. -/
inductive CodecError
  | EmbedFailed
  | UnsupportedFormat
deriving DecidableEq, Repr

instance {ε α : Type} [DecidableEq ε] [DecidableEq α] : DecidableEq (Except ε α) := fun x y =>
  match x, y with
  | .ok a, .ok b =>
    if h : a = b then .isTrue (by rw [h])
    else .isFalse (fun hh => h (Except.ok.inj hh))
  | .error a, .error b =>
    if h : a = b then .isTrue (by rw [h])
    else .isFalse (fun hh => h (Except.error.inj hh))
  | .ok _, .error _ => .isFalse (fun hh => Except.noConfusion hh)
  | .error _, .ok _ => .isFalse (fun hh => Except.noConfusion hh)

/-- One PNG chunk as produced by png-chunks-extract: a 4-character type
code and the raw data bytes. -/
structure Chunk where
  name : Str
  data : Bytes
deriving DecidableEq, Repr

/-- Keyword/text pair decoded from a textual chunk by png-chunk-text. -/
structure TextData where
  keyword : Str
  text : Str
deriving DecidableEq, Repr

/-- Result of an extract operation, as in the source's ExtractResult. -/
structure ExtractResult where
  note : Option Str
  isEncrypted : Bool
deriving DecidableEq, Repr

def tEXtName : Str := "tEXt".toList

def iTXtName : Str := "iTXt".toList

def iendName : Str := "IEND".toList

def mInkName : Str := "mInk".toList

def mIneName : Str := "mIne".toList

def mInvName : Str := "mInv".toList

def memoryInkNoteKw : Str := "MemoryInkNote".toList

def memoryInkEncryptedKw : Str := "MemoryInkEncrypted".toList

def memoryInkVersionKw : Str := "MemoryInkVersion".toList

def trueStr : Str := "true".toList

def falseStr : Str := "false".toList

def versionStr : Str := "1.0".toList

/-- Latin-1 test used by png-chunk-text's regular expressions: the
character's code is at most 0xFF. -/
def isLatin1 (c : Char) : Bool := c.toNat ≤ 255

/-- Translation of png-chunk-text `encode(keyword, content)`: rejects a
keyword or content with a character outside Latin-1, an empty keyword, a
keyword of 80 or more characters, and a NUL character in either part;
otherwise produces a tEXt chunk laid out as keyword bytes, a 0
separator, then content bytes. -/
def pngChunkTextEncode (keyword content : Str) : Except JsError Chunk :=
  if ¬(keyword.all isLatin1 ∧ ¬keyword.isEmpty) ∨ ¬content.all isLatin1 then
    .error .exn
  else if keyword.length ≥ 80 then
    .error .exn
  else if keyword.any (fun c => c.toNat = 0) then
    .error .exn
  else if content.any (fun c => c.toNat = 0) then
    .error .exn
  else
    .ok ⟨tEXtName, keyword.map Char.toNat ++ 0 :: content.map Char.toNat⟩

/-- Text phase of png-chunk-text `decode`: collects characters until the
end of the data; a NUL byte in the text region raises. -/
def pngDecodeText : Bytes → Except JsError Str
  | [] => .ok []
  | b :: rest =>
    if b = 0 then .error .exn
    else (pngDecodeText rest).map (fun t => Char.ofNat b :: t)

/-- Translation of png-chunk-text `decode(data)`: the keyword is the run
of bytes before the first 0 separator, the text is the remainder; a NUL
in the text region raises, and data without a separator yields an empty
text. -/
def pngChunkTextDecode : Bytes → Except JsError TextData
  | [] => .ok ⟨[], []⟩
  | b :: rest =>
    if b = 0 then (pngDecodeText rest).map (fun t => ⟨[], t⟩)
    else (pngChunkTextDecode rest).map (fun td => ⟨Char.ofNat b :: td.keyword, td.text⟩)

/-- JavaScript `Array.prototype.findIndex`: index of the first match, or
-1 when there is none. -/
def findIndexJs (p : Chunk → Bool) (l : List Chunk) : Int :=
  match l.findIdx? p with
  | some i => (i : Int)
  | none => -1

/-- JavaScript `Array.prototype.splice(start, 0, ...items)` restricted to
pure insertion: a negative start counts from the end (clamped at 0), a
start past the end is clamped to the length. -/
def spliceInsert (l : List Chunk) (start : Int) (items : List Chunk) : List Chunk :=
  let n := l.length
  let s : Nat := if start < 0 then n - (-start).toNat else min start.toNat n
  l.take s ++ items ++ l.drop s

/-- Chunk is a textual chunk the extractors look into. -/
def isTextChunk (c : Chunk) : Bool := c.name = tEXtName ∨ c.name = iTXtName

/-- Flat tag map returned by `exiftool.read`, modelled as an association
list from tag name to string value; a tag that is absent from the image
has no entry. `exiftool.write` is modelled by `jsSetTag` below, so that
the external exiftool engine behaves as a consistent key-value store
keyed by the names the repository uses. -/
abbrev TagMap := List (Str × Str)

/-- JavaScript property read `object[key]`: the value when the key is
present, `undefined` otherwise. -/
def jsGetTag (m : TagMap) (k : Str) : Option Str :=
  (m.find? (fun p => decide (p.1 = k))).map (fun p => p.2)

/-- JavaScript-style property write: replace the value in place when the
key exists, append the entry otherwise. -/
def jsSetTag (m : TagMap) (k v : Str) : TagMap :=
  if m.any (fun p => decide (p.1 = k)) then
    m.map (fun p => if p.1 = k then (k, v) else p)
  else
    m ++ [(k, v)]

/-- JavaScript truthiness for an optional string value: `undefined` and
the empty string are falsy. -/
def truthy : Option Str → Bool
  | none => false
  | some s => ¬s.isEmpty

def xmpMemoryInkNoteTag : Str := "XMP:MemoryInkNote".toList

def imageDescriptionTag : Str := "ImageDescription".toList

def userCommentTag : Str := "UserComment".toList

def xmpDescriptionTag : Str := "XMP:Description".toList

def xpCommentTag : Str := "XPComment".toList

def xmpMemoryInkEncryptedTag : Str := "XMP:MemoryInkEncrypted".toList

def xmpMemoryInkVersionTag : Str := "XMP:MemoryInkVersion".toList

/-- JavaScript `path.extname`: the portion of the basename from its last
dot on; empty when the basename has no dot or only a leading one. -/
def extnameJs (p : Str) : Str :=
  let b := (p.reverse.takeWhile (fun c => decide (c ≠ '/'))).reverse
  match b.reverse.findIdx? (fun c => decide (c = '.')) with
  | none => []
  | some i =>
    let idx := b.length - 1 - i
    if idx = 0 then [] else b.drop idx

/-- Lower-cased extension, as computed by both dispatchers. -/
def extLower (p : Str) : Str := (extnameJs p).map Char.toLower

def jpgExt : Str := ".jpg".toList

def jpegExt : Str := ".jpeg".toList

def pngExt : Str := ".png".toList

/-- Outcome of reading an image file for the two codecs: the parsed PNG
chunk list and the exiftool tag map, each `none` when the corresponding
read or parse would throw. -/
structure FsImage where
  pngChunks : Option (List Chunk)
  jpegTags : Option TagMap

/-- New image contents produced by an embed call. -/
inductive EmbedOutput
  | jpeg (tags : TagMap)
  | png (chunks : List Chunk)
deriving DecidableEq, Repr

namespace Server

/-- Translation of the server-side `embedNoteInPNG` chunk manipulation
(file copy and byte (de)serialisation abstracted away): filter out
chunks whose type name is mInk, mIne or mInv, encode the three MemoryInk
tEXt chunks, and splice them in before the IEND chunk; any exception
from the encoder is caught and rethrown as the EmbedFailed error. -/
def embedNoteInPNGChunks (chunks : List Chunk) (note : Str) (isEncrypted : Bool) :
    Except CodecError (List Chunk) :=
  let filteredChunks := chunks.filter
    (fun c => ¬(c.name = mInkName ∨ c.name = mIneName ∨ c.name = mInvName))
  match pngChunkTextEncode memoryInkNoteKw note,
        pngChunkTextEncode memoryInkEncryptedKw (if isEncrypted then trueStr else falseStr),
        pngChunkTextEncode memoryInkVersionKw versionStr with
  | .ok noteChunk, .ok encryptedChunk, .ok versionChunk =>
    let iendIndex := findIndexJs (fun c => c.name = iendName) filteredChunks
    .ok (spliceInsert filteredChunks iendIndex [noteChunk, encryptedChunk, versionChunk])
  | _, _, _ => .error .EmbedFailed

/-- Loop body of the server-side `extractNoteFromPNG`: walk the chunks in
order; each decoded MemoryInkNote keyword overwrites the note candidate
and each MemoryInkEncrypted keyword overwrites the flag; a decode
exception aborts the walk. -/
def pngScan : List Chunk → Option Str × Bool → Except JsError (Option Str × Bool)
  | [], st => .ok st
  | c :: rest, st =>
    if isTextChunk c then
      match pngChunkTextDecode c.data with
      | .error e => .error e
      | .ok td =>
        if td.keyword = memoryInkNoteKw then pngScan rest (some td.text, st.2)
        else if td.keyword = memoryInkEncryptedKw then pngScan rest (st.1, decide (td.text = trueStr))
        else pngScan rest st
    else pngScan rest st

/-- Translation of the server-side `extractNoteFromPNG` on an already
parsed chunk list: the try/catch converts any exception from the walk
into the empty result. -/
def extractNoteFromPNGChunks (chunks : List Chunk) : ExtractResult :=
  match pngScan chunks (none, false) with
  | .ok (n, e) => ⟨n, e⟩
  | .error _ => ⟨none, false⟩

/-- Server-side `extractNoteFromPNG`: the `none` input stands for a file
read or PNG parse that threw, which the catch converts to the empty
result. -/
def extractNoteFromPNG : Option (List Chunk) → ExtractResult
  | none => ⟨none, false⟩
  | some chunks => extractNoteFromPNGChunks chunks

/-- Priority list of note fields read by the server-side
`extractNoteFromJPEG`. -/
def noteFields : List Str :=
  [xmpMemoryInkNoteTag, imageDescriptionTag, userCommentTag, xmpDescriptionTag]

/-- Loop of the server-side `extractNoteFromJPEG`: the first truthy field
of the priority list, in order, becomes the note. -/
def firstTruthyField (m : TagMap) : List Str → Option Str
  | [] => none
  | f :: rest =>
    match jsGetTag m f with
    | some v => if v.isEmpty then firstTruthyField m rest else some v
    | none => firstTruthyField m rest

/-- Translation of the server-side `extractNoteFromJPEG` on a tag map:
note from the priority fields, encrypted flag from a strict comparison
of the XMP:MemoryInkEncrypted tag with the string true. -/
def extractNoteFromJPEGTags (metadata : TagMap) : ExtractResult :=
  ⟨firstTruthyField metadata noteFields,
   decide (jsGetTag metadata xmpMemoryInkEncryptedTag = some trueStr)⟩

/-- Server-side `extractNoteFromJPEG`: the `none` input stands for an
`exiftool.read` that threw, which the catch converts to the empty
result. -/
def extractNoteFromJPEG : Option TagMap → ExtractResult
  | none => ⟨none, false⟩
  | some metadata => extractNoteFromJPEGTags metadata

/-- Translation of the tag set written by the server-side
`embedNoteInJPEG` through `exiftool.write`: the note is written to the
redundant descriptive fields, and the two bookkeeping fields are set. -/
def embedNoteInJPEGTags (existing : TagMap) (note : Str) (isEncrypted : Bool) : TagMap :=
  let t1 := jsSetTag existing imageDescriptionTag note
  let t2 := jsSetTag t1 userCommentTag note
  let t3 := jsSetTag t2 xmpDescriptionTag note
  let t4 := jsSetTag t3 xmpMemoryInkNoteTag note
  let t5 := jsSetTag t4 xmpMemoryInkEncryptedTag (if isEncrypted then trueStr else falseStr)
  jsSetTag t5 xmpMemoryInkVersionTag versionStr

/-- Translation of the server-side dispatcher `embedNote`: switch on the
lower-cased extension; a failed read or metadata write surfaces as
EmbedFailed, any other extension as UnsupportedFormat. -/
def embedNote (imagePath : Str) (img : FsImage) (note : Str) (isEncrypted : Bool) :
    Except CodecError EmbedOutput :=
  let ext := extLower imagePath
  if ext = jpgExt ∨ ext = jpegExt then
    match img.jpegTags with
    | some tags => .ok (.jpeg (embedNoteInJPEGTags tags note isEncrypted))
    | none => .error .EmbedFailed
  else if ext = pngExt then
    match img.pngChunks with
    | some chunks => (embedNoteInPNGChunks chunks note isEncrypted).map .png
    | none => .error .EmbedFailed
  else .error .UnsupportedFormat

/-- Translation of the server-side dispatcher `extractNote`: switch on
the lower-cased extension; the default branch returns the empty result
rather than raising. -/
def extractNote (imagePath : Str) (img : FsImage) : ExtractResult :=
  let ext := extLower imagePath
  if ext = jpgExt ∨ ext = jpegExt then extractNoteFromJPEG img.jpegTags
  else if ext = pngExt then extractNoteFromPNG img.pngChunks
  else ⟨none, false⟩

end Server

namespace Client

/-- Translation of the client-side `embedNoteInPNG` chunk manipulation
(data-url and base64 handling abstracted away); the logic is the same
chunk filter and splice as the server variant. -/
def embedNoteInPNGChunks (chunks : List Chunk) (note : Str) (isEncrypted : Bool) :
    Except CodecError (List Chunk) :=
  let filteredChunks := chunks.filter
    (fun c => ¬(c.name = mInkName ∨ c.name = mIneName ∨ c.name = mInvName))
  match pngChunkTextEncode memoryInkNoteKw note,
        pngChunkTextEncode memoryInkEncryptedKw (if isEncrypted then trueStr else falseStr),
        pngChunkTextEncode memoryInkVersionKw versionStr with
  | .ok noteChunk, .ok encryptedChunk, .ok versionChunk =>
    let iendIndex := findIndexJs (fun c => c.name = iendName) filteredChunks
    .ok (spliceInsert filteredChunks iendIndex [noteChunk, encryptedChunk, versionChunk])
  | _, _, _ => .error .EmbedFailed

/-- Loop body of the client-side `extractNoteFromPNG`; identical walk to
the server variant. -/
def pngScan : List Chunk → Option Str × Bool → Except JsError (Option Str × Bool)
  | [], st => .ok st
  | c :: rest, st =>
    if isTextChunk c then
      match pngChunkTextDecode c.data with
      | .error e => .error e
      | .ok td =>
        if td.keyword = memoryInkNoteKw then pngScan rest (some td.text, st.2)
        else if td.keyword = memoryInkEncryptedKw then pngScan rest (st.1, decide (td.text = trueStr))
        else pngScan rest st
    else pngScan rest st

/-- Translation of the client-side `extractNoteFromPNG` on a chunk list. -/
def extractNoteFromPNGChunks (chunks : List Chunk) : ExtractResult :=
  match pngScan chunks (none, false) with
  | .ok (n, e) => ⟨n, e⟩
  | .error _ => ⟨none, false⟩

/-- Zeroth EXIF IFD as loaded by piexif, keyed by numeric EXIF tag id.
Only this IFD is consulted by the client code; the XMP packet and the
Exif sub-IFD (which holds the standard UserComment tag 0x9286) are not
parsed into it by piexif. Values are modelled as strings. -/
abbrev Ifd := List (Nat × Str)

/-- Property read on the zeroth IFD object. -/
def ifdGet (m : Ifd) (k : Nat) : Option Str :=
  (m.find? (fun p => decide (p.1 = k))).map (fun p => p.2)

/-- Property write on the zeroth IFD object. -/
def ifdSet (m : Ifd) (k : Nat) (v : Str) : Ifd :=
  if m.any (fun p => decide (p.1 = k)) then
    m.map (fun p => if p.1 = k then (k, v) else p)
  else
    m ++ [(k, v)]

/-- piexif.ImageIFD.ImageDescription, EXIF tag 270. -/
def imageDescriptionId : Nat := 270

/-- piexif.ImageIFD.XPComment, EXIF tag 40092. -/
def xpCommentId : Nat := 40092

/-- piexif.ImageIFD.Software, EXIF tag 305. -/
def softwareId : Nat := 305

/-- piexif.ImageIFD.Artist, EXIF tag 315. -/
def artistId : Nat := 315

def encryptedMarker : Str := "ENCRYPTED".toList

def plaintextMarker : Str := "PLAINTEXT".toList

def softwareMarker : Str := "MemoryInk v1.0".toList

/-- Translation of the client-side `embedNoteInJPEG` tag updates on the
zeroth IFD (piexif load/dump/insert abstracted as the identity on the
IFD): note into ImageDescription and XPComment, the producer string into
Software, and the encrypted marker literal into Artist. -/
def embedNoteInJPEGIfd (zeroth : Ifd) (note : Str) (isEncrypted : Bool) : Ifd :=
  let t1 := ifdSet zeroth imageDescriptionId note
  let t2 := ifdSet t1 xpCommentId note
  let t3 := ifdSet t2 softwareId softwareMarker
  ifdSet t3 artistId (if isEncrypted then encryptedMarker else plaintextMarker)

/-- Translation of the client-side `extractNoteFromJPEG` on the zeroth
IFD: ImageDescription if truthy, else XPComment if truthy, else null;
encrypted flag from a strict comparison of Artist with the encrypted
marker. -/
def extractNoteFromJPEGIfd (zeroth : Ifd) : ExtractResult :=
  let d := ifdGet zeroth imageDescriptionId
  let x := ifdGet zeroth xpCommentId
  ⟨if truthy d then d else if truthy x then x else none,
   decide (ifdGet zeroth artistId = some encryptedMarker)⟩

end Client

namespace Cli

/-- Result type of the CLI extractor, which additionally reports the
version string (the diagnostic metadata echo of the JPEG path is not
involved in any claim and is omitted). -/
structure CliExtractResult where
  note : Option Str
  isEncrypted : Bool
  version : Option Str
deriving DecidableEq, Repr

/-- Translation of the CLI `extractFromJPEG` on a tag map: same priority
list and flag comparison as the server codec, plus the version tag. -/
def extractFromJPEGTags (metadata : TagMap) : CliExtractResult :=
  ⟨Server.firstTruthyField metadata Server.noteFields,
   decide (jsGetTag metadata xmpMemoryInkEncryptedTag = some trueStr),
   jsGetTag metadata xmpMemoryInkVersionTag⟩

/-- Loop body of the CLI `extractFromPNG`: as the server walk, but also
capturing the last MemoryInkVersion text. -/
def pngScan : List Chunk → Option Str × Bool × Option Str →
    Except JsError (Option Str × Bool × Option Str)
  | [], st => .ok st
  | c :: rest, st =>
    if isTextChunk c then
      match pngChunkTextDecode c.data with
      | .error e => .error e
      | .ok td =>
        if td.keyword = memoryInkNoteKw then pngScan rest (some td.text, st.2.1, st.2.2)
        else if td.keyword = memoryInkEncryptedKw then
          pngScan rest (st.1, decide (td.text = trueStr), st.2.2)
        else if td.keyword = memoryInkVersionKw then
          pngScan rest (st.1, st.2.1, some td.text)
        else pngScan rest st
    else pngScan rest st

/-- Translation of the CLI `extractFromPNG` on a chunk list. -/
def extractFromPNGChunks (chunks : List Chunk) : CliExtractResult :=
  match pngScan chunks (none, false, none) with
  | .ok (n, e, v) => ⟨n, e, v⟩
  | .error _ => ⟨none, false, none⟩

end Cli

/-- UTF-8 encoding of a JavaScript string into a buffer, modelled as the
character codes (an injective encoding, which is all the development
relies on). -/
def utf8Bytes (s : Str) : Bytes := s.map Char.toNat

/-- Node `crypto.pbkdf2Sync(password, salt, iterations, keylen, digest)`,
modelled as an ideal key-derivation function: a deterministic value that
is injective in every argument (real PBKDF2 is a pseudorandom function,
and the development only relies on derivations with distinct inputs
yielding distinct keys). -/
def pbkdf2Sync (password salt : Bytes) (iterations keylen : Nat) (digest : Str) : Bytes :=
  iterations :: keylen :: password.length :: digest.length ::
    (utf8Bytes digest ++ password ++ salt)

/-- Key half of OpenSSL EVP_BytesToKey as invoked internally by Node's
deprecated `crypto.createCipher(algorithm, password)`: that API treats
its second argument as a password and derives the actual cipher key
from it, modelled as an ideal injective derivation. -/
def evpKey (material : Bytes) : Bytes := 0 :: material

/-- Initialisation-vector half of EVP_BytesToKey inside
`crypto.createCipher`: the iv is likewise derived from the password
material; `createCipher` accepts no caller-provided iv at all. -/
def evpIv (material : Bytes) : Bytes := 1 :: material

/-- Associated-data string bound by both cipher directions. -/
def memoryinkAad : Bytes := utf8Bytes "memoryink-note".toList

/-- Ideal AES-256-GCM ciphertext: the ciphertext bytes determine, under
the keying material that produced them, the original plaintext; the
model records that keying material and the plaintext directly. -/
structure GcmCt where
  key : Bytes
  iv : Bytes
  pt : Str
deriving DecidableEq, Repr

/-- Ideal AES-256-GCM authentication tag: the tag authenticates the key,
iv, associated data and ciphertext, so the model records exactly those;
`decipher.final` succeeds precisely when the presented tag matches the
tag of the decryption parameters. -/
structure GcmTag where
  key : Bytes
  iv : Bytes
  aad : Bytes
  ct : GcmCt
deriving DecidableEq, Repr

/-- Server-side `EncryptionResult` (base64 renderings of the buffers are
modelled transparently). -/
structure EncryptionResult where
  encryptedData : GcmCt
  salt : Bytes
  iv : Bytes
  authTag : GcmTag
deriving DecidableEq, Repr

/-- Server-side `DecryptionParams`. -/
structure DecryptionParams where
  encryptedData : GcmCt
  salt : Bytes
  iv : Bytes
  authTag : GcmTag
  password : Str
deriving DecidableEq, Repr

/-- Error raised when authenticated decryption rejects the data (the
spec's DecryptionFailed; in the source the underlying crypto layer
throws and the callers surface it). -/
inductive CryptoError
  | DecryptionFailed
deriving DecidableEq, Repr

/-- Node `crypto.randomBytes(n)` drawing from an explicit entropy source:
byte i of the result is entropy (offset + i) reduced to a byte. Each
call site uses a distinct offset of the per-call source. -/
def randomBytes (entropy : Nat → Nat) (offset n : Nat) : Bytes :=
  (List.range n).map (fun i => entropy (offset + i) % 256)

namespace Server

/-- Translation of the server-side `deriveKey`: PBKDF2 with 100000
iterations, 32-byte output, SHA-256 digest. -/
def deriveKey (password : Str) (salt : Bytes) : Bytes :=
  pbkdf2Sync (utf8Bytes password) salt 100000 32 "sha256".toList

/-- Translation of the server-side `encryptNote`: draw a 32-byte salt and
a 16-byte iv, derive the key, then run `crypto.createCipher` with
aes-256-gcm keyed by that derived key. `createCipher` derives its own
key and iv from the material via EVP_BytesToKey, so the freshly drawn iv
is returned in the result but never reaches the cipher. -/
def encryptNote (text password : Str) (entropy : Nat → Nat) : EncryptionResult :=
  let salt := randomBytes entropy 0 32
  let iv := randomBytes entropy 32 16
  let key := deriveKey password salt
  let ct : GcmCt := ⟨evpKey key, evpIv key, text⟩
  ⟨ct, salt, iv, ⟨evpKey key, evpIv key, memoryinkAad, ct⟩⟩

/-- Translation of the server-side `decryptNote`: re-derive the key from
the stored salt, run `crypto.createDecipher` (which, like createCipher,
derives key and iv from the material; the stored iv is parsed but never
used), set the associated data and tag, and finalise: a tag mismatch
throws, a match yields the plaintext. -/
def decryptNote (params : DecryptionParams) : Except CryptoError Str :=
  let key := deriveKey params.password params.salt
  if params.authTag = ⟨evpKey key, evpIv key, memoryinkAad, params.encryptedData⟩ then
    .ok params.encryptedData.pt
  else
    .error .DecryptionFailed

end Server

/-- Hex string rendered from a CryptoJS PBKDF2 word array by toString,
modelled by its provenance (the rendering is injective in the derived
key, and the derived key is modelled as injective in the derivation
inputs). -/
structure CjsKeyStr where
  password : Str
  salt : Bytes
  iterations : Nat
  keySizeWords : Nat
deriving DecidableEq, Repr

/-- Ideal CryptoJS ciphertext in passphrase mode: `CryptoJS.AES.encrypt`
with a string key treats it as a passphrase, draws its own 8-byte salt,
derives key and iv from the passphrase via the OpenSSL key-derivation
routine (ignoring the iv passed in the configuration), and CBC-encrypts
with PKCS7 padding. The mode carries no authentication tag, so the
model records only passphrase, embedded salt and plaintext. -/
structure CjsCipherText where
  passphrase : CjsKeyStr
  kdfSalt : Bytes
  pt : Str
deriving DecidableEq, Repr

/-- Client-side encryption result: unlike the server variant it has no
authTag field. -/
structure ClientEncryptionResult where
  encryptedData : CjsCipherText
  salt : Bytes
  iv : Bytes
deriving DecidableEq, Repr

namespace Client

/-- Translation of the client-side `deriveKey`: CryptoJS PBKDF2 with
keySize 256 / 32 words and 100000 iterations, rendered to a string. -/
def deriveKey (password : Str) (salt : Bytes) : CjsKeyStr :=
  ⟨password, salt, 100000, 8⟩

/-- Translation of the client-side `encryptNote`: draw a 32-byte salt and
16-byte iv (their hex renderings are modelled transparently), derive the
key string, and call `CryptoJS.AES.encrypt(text, key, ...)` in
passphrase mode (string key), which draws a further 8-byte internal
salt. -/
def encryptNote (text password : Str) (entropy : Nat → Nat) : ClientEncryptionResult :=
  let salt := randomBytes entropy 0 32
  let iv := randomBytes entropy 32 16
  let key := deriveKey password salt
  ⟨⟨key, randomBytes entropy 48 8, text⟩, salt, iv⟩

/-- Translation of the client-side `decryptNote`: re-derive the key
string and call `CryptoJS.AES.decrypt` followed by a Utf8 rendering.
CBC with PKCS7 has no authentication: with the matching passphrase the
plaintext comes back, and with any other passphrase the cipher produces
unrelated garbage bytes whose Utf8 rendering is a garbage (typically
empty) string, modelled as the empty string; no code path verifies a
tag or raises a decryption error. -/
def decryptNote (encryptedData : CjsCipherText) (password : Str) (salt : Bytes)
    (iv : Bytes) : Str :=
  let key := deriveKey password salt
  if encryptedData.passphrase = key then encryptedData.pt else []

end Client

/-!  Shared description record for the JPEG metadata fields involved in
the priority-order claims, with the view of each extractor variant. -/

/-- Note-bearing JPEG metadata fields of one image; the empty string
stands for an absent or empty field (JavaScript truthiness identifies
the two). -/
structure JpegFields where
  memoryInkNote : Str
  imageDescription : Str
  userComment : Str
  xmpDescription : Str
  xpComment : Str
deriving DecidableEq, Repr

/-- Tag map exiftool reports for such an image: every field is visible
under the name the server codec and the CLI use. -/
def serverTagsOf (f : JpegFields) : TagMap :=
  [(xmpMemoryInkNoteTag, f.memoryInkNote), (imageDescriptionTag, f.imageDescription),
   (userCommentTag, f.userComment), (xmpDescriptionTag, f.xmpDescription),
   (xpCommentTag, f.xpComment)]

/-- Zeroth IFD piexif reports for such an image: only the zeroth-IFD
EXIF tags ImageDescription (270) and XPComment (40092) appear there; the
XMP packet fields (MemoryInkNote, XMP description) and the Exif sub-IFD
UserComment are invisible to the client code, which reads only this
IFD. -/
def clientIfdOf (f : JpegFields) : Client.Ifd :=
  [(Client.imageDescriptionId, f.imageDescription), (Client.xpCommentId, f.xpComment)]

/-- First non-empty string of a priority list. -/
def firstNonEmpty : List Str → Option Str
  | [] => none
  | s :: rest => if s.isEmpty then firstNonEmpty rest else some s

/-- Modelled from the spec: the canonical fixed priority order for JPEG
note extraction, highest first: the custom MemoryInkNote field, then the
image description, then the user comment, then the XMP description; the
first non-empty field is the note. -/
def specCanonicalNote (f : JpegFields) : Option Str :=
  firstNonEmpty [f.memoryInkNote, f.imageDescription, f.userComment, f.xmpDescription]

/-!  Observation helpers for PNG chunk streams. -/

/-- Text payload a chunk contributes for a given keyword: the decoded
text when the chunk is textual, decodes, and carries that keyword. -/
def chunkKeywordText (kw : Str) (c : Chunk) : Option Str :=
  if isTextChunk c then
    match pngChunkTextDecode c.data with
    | .ok td => if td.keyword = kw then some td.text else none
    | .error _ => none
  else none

/-- Texts of the decodable MemoryInkNote chunks, in stream order. -/
def noteTexts (chunks : List Chunk) : List Str :=
  chunks.filterMap (chunkKeywordText memoryInkNoteKw)

/-- Texts of the decodable MemoryInkEncrypted chunks, in stream order. -/
def encTexts (chunks : List Chunk) : List Str :=
  chunks.filterMap (chunkKeywordText memoryInkEncryptedKw)

/-- Texts of the decodable MemoryInkVersion chunks, in stream order. -/
def verTexts (chunks : List Chunk) : List Str :=
  chunks.filterMap (chunkKeywordText memoryInkVersionKw)

/-- Last element of a list, or a default (the note candidate each
matching chunk overwrites). -/
def lastOr : List Str → Option Str → Option Str
  | [], d => d
  | x :: xs, _ => lastOr xs (some x)

/-- Encrypted flag induced by the last captured MemoryInkEncrypted text,
or a default. -/
def lastEnc : List Str → Bool → Bool
  | [], d => d
  | x :: xs, _ => lastEnc xs (decide (x = trueStr))

/-- Every textual chunk of the stream decodes. -/
def AllTextDecode (chunks : List Chunk) : Prop :=
  ∀ c ∈ chunks, isTextChunk c = true → (pngChunkTextDecode c.data).isOk = true

instance (chunks : List Chunk) : Decidable (AllTextDecode chunks) := by
  unfold AllTextDecode; infer_instance

theorem lastOr_cons (x : Str) (xs : List Str) (d : Option Str) :
    lastOr (x :: xs) d = lastOr xs (some x) := rfl

theorem lastEnc_cons (x : Str) (xs : List Str) (d : Bool) :
    lastEnc (x :: xs) d = lastEnc xs (decide (x = trueStr)) := rfl

/-- The accumulated last-or is the last element when the list is not
empty. -/
theorem lastOr_eq_getLast? (xs : List Str) : ∀ d, lastOr xs d =
    match xs.getLast? with
    | some y => some y
    | none => d := by
  induction xs with
  | nil => intro d; rfl
  | cons y ys ih =>
    intro d
    rw [lastOr_cons, ih]
    cases ys with
    | nil => rfl
    | cons z zs =>
      rw [List.getLast?_cons_cons]
      cases hg : (z :: zs).getLast? with
      | some w => rfl
      | none => simp at hg

theorem memoryInkKw_note_ne_enc : memoryInkNoteKw ≠ memoryInkEncryptedKw := by decide

theorem memoryInkKw_note_ne_ver : memoryInkNoteKw ≠ memoryInkVersionKw := by decide

theorem memoryInkKw_enc_ne_ver : memoryInkEncryptedKw ≠ memoryInkVersionKw := by decide

/-- The server walk over a decodable stream computes exactly the
last-captured note and flag. -/
theorem serverPngScan_eq (l : List Chunk) (h : AllTextDecode l) :
    ∀ n0 e0, Server.pngScan l (n0, e0) =
      .ok (lastOr (noteTexts l) n0, lastEnc (encTexts l) e0) := by
  induction l with
  | nil => intro n0 e0; rfl
  | cons c rest ih =>
    intro n0 e0
    have hrest : AllTextDecode rest := fun x hx => h x (List.mem_cons_of_mem _ hx)
    by_cases ht : isTextChunk c
    · obtain ⟨td, htd⟩ : ∃ td, pngChunkTextDecode c.data = .ok td := by
        cases hdec : pngChunkTextDecode c.data with
        | error e =>
          have := h c (List.mem_cons_self ..) ht
          rw [hdec] at this
          simp [Except.isOk, Except.toBool] at this
        | ok td => exact ⟨td, rfl⟩
      by_cases hk1 : td.keyword = memoryInkNoteKw
      · have hn : noteTexts (c :: rest) = td.text :: noteTexts rest := by
          simp [noteTexts, chunkKeywordText, ht, htd, hk1]
        have he : encTexts (c :: rest) = encTexts rest := by
          simp [encTexts, chunkKeywordText, ht, htd, hk1, memoryInkKw_note_ne_enc]
        have hstep : Server.pngScan (c :: rest) (n0, e0) =
            Server.pngScan rest (some td.text, e0) := by
          simp [Server.pngScan, ht, htd, hk1]
        rw [hstep, ih hrest (some td.text) e0, hn, he, lastOr_cons]
      · by_cases hk2 : td.keyword = memoryInkEncryptedKw
        · have hn : noteTexts (c :: rest) = noteTexts rest := by
            simp [noteTexts, chunkKeywordText, ht, htd, hk1]
          have he : encTexts (c :: rest) = td.text :: encTexts rest := by
            simp [encTexts, chunkKeywordText, ht, htd, hk2]
          have hstep : Server.pngScan (c :: rest) (n0, e0) =
              Server.pngScan rest (n0, decide (td.text = trueStr)) := by
            simp [Server.pngScan, ht, htd, hk1, hk2, memoryInkKw_note_ne_enc.symm]
          rw [hstep, ih hrest n0 (decide (td.text = trueStr)), hn, he, lastEnc_cons]
        · have hn : noteTexts (c :: rest) = noteTexts rest := by
            simp [noteTexts, chunkKeywordText, ht, htd, hk1]
          have he : encTexts (c :: rest) = encTexts rest := by
            simp [encTexts, chunkKeywordText, ht, htd, hk2]
          have hstep : Server.pngScan (c :: rest) (n0, e0) =
              Server.pngScan rest (n0, e0) := by
            simp [Server.pngScan, ht, htd, hk1, hk2]
          rw [hstep, ih hrest n0 e0, hn, he]
    · have hb : isTextChunk c = false := by simpa using ht
      have hn : noteTexts (c :: rest) = noteTexts rest := by
        simp [noteTexts, chunkKeywordText, hb]
      have he : encTexts (c :: rest) = encTexts rest := by
        simp [encTexts, chunkKeywordText, hb]
      have hstep : Server.pngScan (c :: rest) (n0, e0) =
          Server.pngScan rest (n0, e0) := by
        simp [Server.pngScan, hb]
      rw [hstep, ih hrest n0 e0, hn, he]

/-- The client-side walk is the same function as the server-side walk. -/
theorem clientPngScan_eq_server (l : List Chunk) :
    ∀ st, Client.pngScan l st = Server.pngScan l st := by
  induction l with
  | nil => intro st; rfl
  | cons c rest ih =>
    intro st
    by_cases ht : isTextChunk c
    · cases htd : pngChunkTextDecode c.data with
      | error e => simp [Client.pngScan, Server.pngScan, ht, htd]
      | ok td =>
        by_cases hk1 : td.keyword = memoryInkNoteKw
        · simp [Client.pngScan, Server.pngScan, ht, htd, hk1, ih]
        · by_cases hk2 : td.keyword = memoryInkEncryptedKw
          · simp [Client.pngScan, Server.pngScan, ht, htd, hk1, hk2, ih]
          · simp [Client.pngScan, Server.pngScan, ht, htd, hk1, hk2, ih]
    · have hb : isTextChunk c = false := by simpa using ht
      simp [Client.pngScan, Server.pngScan, hb, ih]

/-- The CLI walk over a decodable stream computes the last-captured
note, flag and version. -/
theorem cliPngScan_eq (l : List Chunk) (h : AllTextDecode l) :
    ∀ n0 e0 v0, Cli.pngScan l (n0, e0, v0) =
      .ok (lastOr (noteTexts l) n0, lastEnc (encTexts l) e0, lastOr (verTexts l) v0) := by
  induction l with
  | nil => intro n0 e0 v0; rfl
  | cons c rest ih =>
    intro n0 e0 v0
    have hrest : AllTextDecode rest := fun x hx => h x (List.mem_cons_of_mem _ hx)
    by_cases ht : isTextChunk c
    · obtain ⟨td, htd⟩ : ∃ td, pngChunkTextDecode c.data = .ok td := by
        cases hdec : pngChunkTextDecode c.data with
        | error e =>
          have := h c (List.mem_cons_self ..) ht
          rw [hdec] at this
          simp [Except.isOk, Except.toBool] at this
        | ok td => exact ⟨td, rfl⟩
      by_cases hk1 : td.keyword = memoryInkNoteKw
      · have hn : noteTexts (c :: rest) = td.text :: noteTexts rest := by
          simp [noteTexts, chunkKeywordText, ht, htd, hk1]
        have he : encTexts (c :: rest) = encTexts rest := by
          simp [encTexts, chunkKeywordText, ht, htd, hk1, memoryInkKw_note_ne_enc]
        have hv : verTexts (c :: rest) = verTexts rest := by
          simp [verTexts, chunkKeywordText, ht, htd, hk1, memoryInkKw_note_ne_ver]
        have hstep : Cli.pngScan (c :: rest) (n0, e0, v0) =
            Cli.pngScan rest (some td.text, e0, v0) := by
          simp [Cli.pngScan, ht, htd, hk1]
        rw [hstep, ih hrest (some td.text) e0 v0, hn, he, hv, lastOr_cons]
      · by_cases hk2 : td.keyword = memoryInkEncryptedKw
        · have hn : noteTexts (c :: rest) = noteTexts rest := by
            simp [noteTexts, chunkKeywordText, ht, htd, hk1]
          have he : encTexts (c :: rest) = td.text :: encTexts rest := by
            simp [encTexts, chunkKeywordText, ht, htd, hk2]
          have hv : verTexts (c :: rest) = verTexts rest := by
            simp [verTexts, chunkKeywordText, ht, htd, hk2, memoryInkKw_enc_ne_ver]
          have hstep : Cli.pngScan (c :: rest) (n0, e0, v0) =
              Cli.pngScan rest (n0, decide (td.text = trueStr), v0) := by
            simp [Cli.pngScan, ht, htd, hk1, hk2, memoryInkKw_note_ne_enc.symm]
          rw [hstep, ih hrest n0 (decide (td.text = trueStr)) v0, hn, he, hv, lastEnc_cons]
        · by_cases hk3 : td.keyword = memoryInkVersionKw
          · have hn : noteTexts (c :: rest) = noteTexts rest := by
              simp [noteTexts, chunkKeywordText, ht, htd, hk1]
            have he : encTexts (c :: rest) = encTexts rest := by
              simp [encTexts, chunkKeywordText, ht, htd, hk2]
            have hv : verTexts (c :: rest) = td.text :: verTexts rest := by
              simp [verTexts, chunkKeywordText, ht, htd, hk3]
            have hstep : Cli.pngScan (c :: rest) (n0, e0, v0) =
                Cli.pngScan rest (n0, e0, some td.text) := by
              simp [Cli.pngScan, ht, htd, hk1, hk2, hk3,
                memoryInkKw_note_ne_ver.symm, memoryInkKw_enc_ne_ver.symm]
            rw [hstep, ih hrest n0 e0 (some td.text), hn, he, hv, lastOr_cons]
          · have hn : noteTexts (c :: rest) = noteTexts rest := by
              simp [noteTexts, chunkKeywordText, ht, htd, hk1]
            have he : encTexts (c :: rest) = encTexts rest := by
              simp [encTexts, chunkKeywordText, ht, htd, hk2]
            have hv : verTexts (c :: rest) = verTexts rest := by
              simp [verTexts, chunkKeywordText, ht, htd, hk3]
            have hstep : Cli.pngScan (c :: rest) (n0, e0, v0) =
                Cli.pngScan rest (n0, e0, v0) := by
              simp [Cli.pngScan, ht, htd, hk1, hk2, hk3]
            rw [hstep, ih hrest n0 e0 v0, hn, he, hv]
    · have hb : isTextChunk c = false := by simpa using ht
      have hn : noteTexts (c :: rest) = noteTexts rest := by
        simp [noteTexts, chunkKeywordText, hb]
      have he : encTexts (c :: rest) = encTexts rest := by
        simp [encTexts, chunkKeywordText, hb]
      have hv : verTexts (c :: rest) = verTexts rest := by
        simp [verTexts, chunkKeywordText, hb]
      have hstep : Cli.pngScan (c :: rest) (n0, e0, v0) =
          Cli.pngScan rest (n0, e0, v0) := by
        simp [Cli.pngScan, hb]
      rw [hstep, ih hrest n0 e0 v0, hn, he, hv]

/-- A stream containing an undecodable textual chunk makes the server
walk raise (the first such chunk aborts it). -/
theorem serverPngScan_error (l : List Chunk)
    (h : ∃ c ∈ l, isTextChunk c = true ∧ (pngChunkTextDecode c.data).isOk = false) :
    ∀ st, ∃ e, Server.pngScan l st = .error e := by
  induction l with
  | nil => simp at h
  | cons c rest ih =>
    intro st
    by_cases ht : isTextChunk c
    · cases htd : pngChunkTextDecode c.data with
      | error e => exact ⟨e, by simp [Server.pngScan, ht, htd]⟩
      | ok td =>
        have hrest : ∃ x ∈ rest, isTextChunk x = true ∧ (pngChunkTextDecode x.data).isOk = false := by
          obtain ⟨x, hx, hxt, hxbad⟩ := h
          rcases List.mem_cons.mp hx with rfl | hx2
          · rw [htd] at hxbad
            simp [Except.isOk, Except.toBool] at hxbad
          · exact ⟨x, hx2, hxt, hxbad⟩
        by_cases hk1 : td.keyword = memoryInkNoteKw
        · obtain ⟨e, he⟩ := ih hrest (some td.text, st.2)
          exact ⟨e, by simp [Server.pngScan, ht, htd, hk1, he]⟩
        · by_cases hk2 : td.keyword = memoryInkEncryptedKw
          · obtain ⟨e, he⟩ := ih hrest (st.1, decide (td.text = trueStr))
            exact ⟨e, by simp [Server.pngScan, ht, htd, hk1, hk2, he,
              memoryInkKw_note_ne_enc.symm]⟩
          · obtain ⟨e, he⟩ := ih hrest st
            exact ⟨e, by simp [Server.pngScan, ht, htd, hk1, hk2, he]⟩
    · have hb : isTextChunk c = false := by simpa using ht
      have hrest : ∃ x ∈ rest, isTextChunk x = true ∧ (pngChunkTextDecode x.data).isOk = false := by
        obtain ⟨x, hx, hxt, hxbad⟩ := h
        rcases List.mem_cons.mp hx with rfl | hx2
        · rw [hxt] at hb; exact absurd hb (by simp)
        · exact ⟨x, hx2, hxt, hxbad⟩
      obtain ⟨e, he⟩ := ih hrest st
      exact ⟨e, by simp [Server.pngScan, hb, he]⟩

/-- Characters of a string all lie in the printable Latin-1 byte range
the tEXt encoder accepts. -/
def Latin1NoNul (s : Str) : Prop := ∀ c ∈ s, 1 ≤ c.toNat ∧ c.toNat ≤ 255

instance (s : Str) : Decidable (Latin1NoNul s) := by
  unfold Latin1NoNul; infer_instance

/-- Byte image of a chunk text payload. -/
def strBytes (s : Str) : Bytes := s.map Char.toNat

/-- Chunk the tEXt encoder produces on success. -/
def mkTextChunk (kw content : Str) : Chunk :=
  ⟨tEXtName, strBytes kw ++ 0 :: strBytes content⟩

theorem pngChunkTextEncode_ok (kw content : Str)
    (hkwA : kw.all isLatin1 = true) (hkwNE : kw.isEmpty = false) (hkwLen : kw.length < 80)
    (hkw0 : kw.any (fun c => decide (c.toNat = 0)) = false)
    (hcA : content.all isLatin1 = true)
    (hc0 : content.any (fun c => decide (c.toNat = 0)) = false) :
    pngChunkTextEncode kw content = .ok (mkTextChunk kw content) := by
  simp [pngChunkTextEncode, mkTextChunk, strBytes, hkwA, hkwNE, hcA, hkw0, hc0,
    Nat.not_le.mpr hkwLen]

theorem latin1NoNul_all (s : Str) (h : Latin1NoNul s) : s.all isLatin1 = true := by
  rw [List.all_eq_true]
  intro c hc
  simp [isLatin1]
  exact (h c hc).2

theorem latin1NoNul_noZero (s : Str) (h : Latin1NoNul s) :
    s.any (fun c => decide (c.toNat = 0)) = false := by
  rw [List.any_eq_false]
  intro c hc
  have := (h c hc).1
  simp
  omega

/-- Successful encoding for the reserved keywords and a Latin-1 non-NUL
content. -/
theorem encode_reserved_ok (kw content : Str)
    (hkw : kw = memoryInkNoteKw ∨ kw = memoryInkEncryptedKw ∨ kw = memoryInkVersionKw)
    (hc : Latin1NoNul content) :
    pngChunkTextEncode kw content = .ok (mkTextChunk kw content) := by
  apply pngChunkTextEncode_ok
  · rcases hkw with rfl | rfl | rfl <;> decide
  · rcases hkw with rfl | rfl | rfl <;> decide
  · rcases hkw with rfl | rfl | rfl <;> decide
  · rcases hkw with rfl | rfl | rfl <;> decide
  · exact latin1NoNul_all content hc
  · exact latin1NoNul_noZero content hc

theorem pngDecodeText_bytes (s : Str) (h : ∀ c ∈ s, 1 ≤ c.toNat) :
    pngDecodeText (strBytes s) = .ok s := by
  induction s with
  | nil => rfl
  | cons c cs ih =>
    have h1 : 1 ≤ c.toNat := h c (List.mem_cons_self ..)
    have hne : ¬c.toNat = 0 := by omega
    have ihr := ih (fun x hx => h x (List.mem_cons_of_mem _ hx))
    rw [show strBytes (c :: cs) = c.toNat :: strBytes cs from rfl]
    rw [show pngDecodeText (c.toNat :: strBytes cs)
        = (pngDecodeText (strBytes cs)).map (fun t => Char.ofNat c.toNat :: t) from by
          simp [pngDecodeText, hne]]
    rw [ihr]
    simp [Except.map, Char.ofNat_toNat]

/-- Decoding the byte layout the encoder produced recovers the keyword
and text. -/
theorem pngChunkTextDecode_encoded (kw content : Str)
    (hkw : ∀ c ∈ kw, 1 ≤ c.toNat) (hc : ∀ c ∈ content, 1 ≤ c.toNat) :
    pngChunkTextDecode (strBytes kw ++ 0 :: strBytes content) = .ok ⟨kw, content⟩ := by
  induction kw with
  | nil =>
    have hd := pngDecodeText_bytes content hc
    rw [show strBytes [] ++ 0 :: strBytes content = 0 :: strBytes content from rfl]
    rw [show pngChunkTextDecode (0 :: strBytes content)
        = (pngDecodeText (strBytes content)).map (fun t => ⟨[], t⟩) from by
          simp [pngChunkTextDecode]]
    rw [hd]
    rfl
  | cons c cs ih =>
    have h1 : 1 ≤ c.toNat := hkw c (List.mem_cons_self ..)
    have hne : ¬c.toNat = 0 := by omega
    have ihr := ih (fun x hx => hkw x (List.mem_cons_of_mem _ hx))
    rw [show strBytes (c :: cs) ++ 0 :: strBytes content
        = c.toNat :: (strBytes cs ++ 0 :: strBytes content) from rfl]
    rw [show pngChunkTextDecode (c.toNat :: (strBytes cs ++ 0 :: strBytes content))
        = (pngChunkTextDecode (strBytes cs ++ 0 :: strBytes content)).map
            (fun td => ⟨Char.ofNat c.toNat :: td.keyword, td.text⟩) from by
          simp [pngChunkTextDecode, hne]]
    rw [ihr]
    simp [Except.map, Char.ofNat_toNat]

/-- Decoding an encoded reserved-keyword chunk. -/
theorem decode_mkTextChunk (kw content : Str)
    (hkw : ∀ c ∈ kw, 1 ≤ c.toNat) (hc : Latin1NoNul content) :
    pngChunkTextDecode (mkTextChunk kw content).data = .ok ⟨kw, content⟩ :=
  pngChunkTextDecode_encoded kw content hkw (fun c hcc => (hc c hcc).1)

/-- JavaScript findIndex over a prefix with no match followed by a
matching element. -/
theorem findIdx?_append_single (xs : List Chunk) (y : Chunk) (p : Chunk → Bool)
    (hxs : ∀ x ∈ xs, p x = false) (hy : p y = true) :
    ∀ i, List.findIdx? p (xs ++ [y]) i = some (xs.length + i) := by
  induction xs with
  | nil => intro i; simp [List.findIdx?_cons, hy]
  | cons x rest ih =>
    intro i
    have hx : p x = false := hxs x (List.mem_cons_self ..)
    have ihr := ih (fun z hz => hxs z (List.mem_cons_of_mem _ hz)) (i + 1)
    rw [List.cons_append, List.findIdx?_cons, hx, if_neg (by simp), ihr]
    exact congrArg some (by simp [List.length_cons]; omega)

theorem findIndexJs_append_single (xs : List Chunk) (y : Chunk) (p : Chunk → Bool)
    (hxs : ∀ x ∈ xs, p x = false) (hy : p y = true) :
    findIndexJs p (xs ++ [y]) = (xs.length : Int) := by
  simp [findIndexJs, findIdx?_append_single xs y p hxs hy 0]

/-- Splicing at an interior index is insertion there. -/
theorem spliceInsert_at_length (xs ys : List Chunk) (items : List Chunk) :
    spliceInsert (xs ++ ys) (xs.length : Int) items = xs ++ items ++ ys := by
  have hmin : min (Int.toNat (xs.length : Int)) (xs ++ ys).length = xs.length := by
    simp [List.length_append]
  simp only [spliceInsert]
  rw [if_neg (by omega)]
  rw [hmin, List.take_left, List.drop_left]

/-- Characters are recovered from their codes. -/
theorem char_toNat_inj (c d : Char) (h : c.toNat = d.toNat) : c = d := by
  have := congrArg Char.ofNat h
  rwa [Char.ofNat_toNat, Char.ofNat_toNat] at this

theorem utf8Bytes_inj (s t : Str) (h : utf8Bytes s = utf8Bytes t) : s = t := by
  induction s generalizing t with
  | nil => cases t <;> simp [utf8Bytes] at h ⊢
  | cons c cs ih =>
    cases t with
    | nil => simp [utf8Bytes] at h
    | cons d ds =>
      simp only [utf8Bytes, List.map_cons, List.cons.injEq] at h
      exact by rw [char_toNat_inj c d h.1, ih ds (by simpa [utf8Bytes] using h.2)]

/-- The ideal PBKDF2 is injective in the password for a fixed salt and
parameter set. -/
theorem pbkdf2Sync_password_inj (p1 p2 salt : Bytes) (iter keylen : Nat) (digest : Str)
    (h : pbkdf2Sync p1 salt iter keylen digest = pbkdf2Sync p2 salt iter keylen digest) :
    p1 = p2 := by
  simp only [pbkdf2Sync, List.cons.injEq] at h
  obtain ⟨-, -, hlen, -, htail⟩ := h
  rw [List.append_assoc, List.append_assoc] at htail
  have h2 := List.append_cancel_left htail
  exact (List.append_inj h2 hlen).1

/-- The server key derivation is injective in the password. -/
theorem deriveKey_password_inj (p1 p2 : Str) (salt : Bytes)
    (h : Server.deriveKey p1 salt = Server.deriveKey p2 salt) : p1 = p2 :=
  utf8Bytes_inj p1 p2 (pbkdf2Sync_password_inj _ _ _ _ _ _ h)

/-- Updating the entries at one key does not change what a search for a
different key finds. -/
theorem find?_update_ne {κ : Type} [DecidableEq κ] (m : List (κ × Str)) (k k2 : κ) (v : Str)
    (h : ¬k2 = k) :
    List.find? (fun p => decide (p.1 = k2)) (m.map (fun p => if p.1 = k then (k, v) else p))
      = List.find? (fun p => decide (p.1 = k2)) m := by
  induction m with
  | nil => rfl
  | cons p rest ih =>
    rw [List.map_cons]
    by_cases hp : p.1 = k
    · rw [List.find?_cons_of_neg _ (by simp [hp, Ne.symm h]),
        List.find?_cons_of_neg _ (by simp [hp, Ne.symm h])]
      exact ih
    · by_cases hp2 : p.1 = k2
      · rw [List.find?_cons_of_pos _ (by simp [hp2, h]),
          List.find?_cons_of_pos _ (by simp [hp2]), if_neg hp]
      · rw [List.find?_cons_of_neg _ (by simp [hp2, hp]),
          List.find?_cons_of_neg _ (by simp [hp2])]
        exact ih

/-- Appending an entry at one key does not change what a search for a
different key finds. -/
theorem find?_append_ne {κ : Type} [DecidableEq κ] (m : List (κ × Str)) (k k2 : κ) (v : Str)
    (h : ¬k2 = k) :
    List.find? (fun p => decide (p.1 = k2)) (m ++ [(k, v)])
      = List.find? (fun p => decide (p.1 = k2)) m := by
  rw [List.find?_append]
  have hnone : List.find? (fun p => decide (p.1 = k2)) [(k, v)] = none := by
    simp [Ne.symm h]
  rw [hnone]
  cases List.find? (fun p => decide (p.1 = k2)) m <;> rfl

/-- Property reads at a different key pass through a JavaScript-style
property write (tag-map version). -/
theorem jsGetTag_jsSetTag_ne (m : TagMap) (k k2 v : Str) (h : ¬k2 = k) :
    jsGetTag (jsSetTag m k v) k2 = jsGetTag m k2 := by
  unfold jsSetTag jsGetTag
  by_cases hany : m.any (fun p => decide (p.1 = k))
  · rw [if_pos hany, find?_update_ne m k k2 v h]
  · rw [if_neg hany, find?_append_ne m k k2 v h]

/-- Property reads at a different key pass through a JavaScript-style
property write (IFD version). -/
theorem ifdGet_ifdSet_ne (m : Client.Ifd) (k k2 : Nat) (v : Str) (h : ¬k2 = k) :
    Client.ifdGet (Client.ifdSet m k v) k2 = Client.ifdGet m k2 := by
  unfold Client.ifdSet Client.ifdGet
  by_cases hany : m.any (fun p => decide (p.1 = k))
  · rw [if_pos hany, find?_update_ne m k k2 v h]
  · rw [if_neg hany, find?_append_ne m k k2 v h]

/-- The flag pattern retains the last MemoryInkEncrypted comparison when
the list is not empty. -/
theorem lastEnc_eq_getLast? (xs : List Str) : ∀ d, lastEnc xs d =
    match xs.getLast? with
    | some y => decide (y = trueStr)
    | none => d := by
  induction xs with
  | nil => intro d; rfl
  | cons y ys ih =>
    intro d
    rw [lastEnc_cons, ih]
    cases ys with
    | nil => rfl
    | cons z zs =>
      rw [List.getLast?_cons_cons]
      cases hg : (z :: zs).getLast? with
      | some w => rfl
      | none => simp at hg

/-- Inserted elements do not remove existing ones. -/
theorem spliceInsert_mem (l : List Chunk) (s : Int) (items : List Chunk) (c : Chunk)
    (hc : c ∈ l) : c ∈ spliceInsert l s items := by
  unfold spliceInsert
  have hsplit : c ∈ l.take (if (s : Int) < 0 then l.length - (-s).toNat else min s.toNat l.length)
      ++ l.drop (if (s : Int) < 0 then l.length - (-s).toNat else min s.toNat l.length) := by
    rw [List.take_append_drop]
    exact hc
  rcases List.mem_append.mp hsplit with h | h
  · exact List.mem_append.mpr (Or.inl (List.mem_append.mpr (Or.inl h)))
  · exact List.mem_append.mpr (Or.inr h)

/-!  Concrete fixtures used by witnesses and counterexamples. -/

/-- Minimal well-formed PNG chunk stream (chunk payloads other than the
MemoryInk text chunks are irrelevant to the codec logic). -/
def minimalPng : List Chunk := [⟨"IHDR".toList, []⟩, ⟨"IDAT".toList, []⟩, ⟨"IEND".toList, []⟩]

def firstNote : Str := "first note".toList

def secondNote : Str := "second note".toList

def demoText : Str := "hello".toList

def demoPassword : Str := "pw".toList

def demoOther : Str := "qw".toList

def demoNote : Str := "note".toList

def entropyA : Nat → Nat := fun i => i

def entropyB : Nat → Nat := fun i => if i < 32 then i else i + 100

def gifPath : Str := "photo.gif".toList

def demoImg : FsImage := ⟨some minimalPng, some []⟩

/-- Text chunk whose text region contains a NUL byte (keyword k, then
the bytes of h, NUL, i): png-chunk-text decode raises on it. -/
def poisonChunk : Chunk := ⟨tEXtName, [107, 0, 104, 0, 105]⟩

def secretNote : Str := "secret".toList

/-- Field assignment with a MemoryInkNote value and nothing else. -/
def cexFields : JpegFields := ⟨secretNote, [], [], [], []⟩

def anselArtist : Str := "Ansel Adams".toList

/-- EXIF Copyright tag id, a foreign tag outside the set the client
embedder writes. -/
def copyrightId : Nat := 33432

def copyrightVal : Str := "copyright by a photographer".toList

def foreignChunk : Chunk := ⟨"cHRM".toList, [1, 2, 3]⟩

def chunksW : List Chunk := [⟨"IHDR".toList, []⟩, foreignChunk, ⟨"IEND".toList, []⟩]

/-- Output of embedding the demo note into chunksW (total by matching on
the embed result). -/
def outW : List Chunk :=
  match Server.embedNoteInPNGChunks chunksW demoNote false with
  | .ok out => out
  | .error _ => []

/-- C3: the spec demands that re-embedding leaves exactly one chunk per
reserved keyword, and the code comments say existing MemoryInk chunks
are removed first; but the filter matches the chunk type names mInk,
mIne and mInv while the inserted chunks have type tEXt with the
MemoryInk keyword inside the data, so nothing is ever removed: embedding
twice leaves two MemoryInkNote chunks in both the server-side and the
client-side embedder. -/
theorem png_double_embed_duplicates :
    ((Server.embedNoteInPNGChunks minimalPng firstNote false).bind
        (fun mid => Server.embedNoteInPNGChunks mid secondNote false)).map
        (fun out => ((noteTexts out).length, (encTexts out).length)) = .ok (2, 2)
    ∧ ((Client.embedNoteInPNGChunks minimalPng firstNote false).bind
        (fun mid => Client.embedNoteInPNGChunks mid secondNote false)).map
        (fun out => ((noteTexts out).length, (encTexts out).length)) = .ok (2, 2) := by
  constructor <;> decide

/-- C4: encryptNote does draw a fresh 256-bit salt and a fresh 128-bit
iv, but it keys the cipher through crypto.createCipher, which accepts no
iv and derives its own key and iv from the password material: the
ciphertext and the authentication tag are unchanged when only the drawn
iv changes, so the iv returned in the result is not the iv used by the
cipher. -/
theorem encrypt_iv_not_used_by_cipher :
    (∀ (text password : Str) (entropy : Nat → Nat),
        (Server.encryptNote text password entropy).salt = randomBytes entropy 0 32
        ∧ (Server.encryptNote text password entropy).iv = randomBytes entropy 32 16
        ∧ (Server.encryptNote text password entropy).salt.length = 32
        ∧ (Server.encryptNote text password entropy).iv.length = 16)
    ∧ (Server.encryptNote demoText demoPassword entropyA).encryptedData
        = (Server.encryptNote demoText demoPassword entropyB).encryptedData
    ∧ (Server.encryptNote demoText demoPassword entropyA).authTag
        = (Server.encryptNote demoText demoPassword entropyB).authTag
    ∧ ¬(Server.encryptNote demoText demoPassword entropyA).iv
        = (Server.encryptNote demoText demoPassword entropyB).iv := by
  refine ⟨fun text password entropy => ⟨rfl, rfl, ?_, ?_⟩, by decide, by decide, by decide⟩
  · simp [Server.encryptNote, randomBytes]
  · simp [Server.encryptNote, randomBytes]

/-- C5 (amended): on a path whose lower-cased extension is not .jpg,
.jpeg or .png, the embed dispatcher fails with UnsupportedFormat and
produces no output, while the extract dispatcher returns the successful
empty result rather than an UnsupportedFormat failure. -/
theorem unsupported_format_dispatch :
    ∀ (path : Str) (img : FsImage) (note : Str) (enc : Bool),
      ¬extLower path ∈ [jpgExt, jpegExt, pngExt] →
      Server.embedNote path img note enc = .error .UnsupportedFormat
      ∧ Server.extractNote path img = ⟨none, false⟩ := by
  intro path img note enc h
  have h1 : ¬(extLower path = jpgExt ∨ extLower path = jpegExt) := by
    intro hc
    rcases hc with hc | hc <;> exact h (by simp [hc])
  have h2 : ¬extLower path = pngExt := fun hc => h (by simp [hc])
  constructor
  · simp only [Server.embedNote]
    rw [if_neg h1, if_neg h2]
  · simp only [Server.extractNote]
    rw [if_neg h1, if_neg h2]

/-- C5 counterexample: the claim says extractNote on a .gif path fails
with UnsupportedFormat; the dispatcher's default branch instead returns
the successful empty result. -/
theorem extract_gif_returns_empty_counterexample :
    Server.extractNote gifPath demoImg = ⟨none, false⟩ := by decide

theorem unsupported_format_dispatch_witness :
    ¬extLower gifPath ∈ [jpgExt, jpegExt, pngExt]
    ∧ (Server.embedNote gifPath demoImg demoNote false = .error .UnsupportedFormat
       ∧ Server.extractNote gifPath demoImg = ⟨none, false⟩) :=
  ⟨by decide, unsupported_format_dispatch gifPath demoImg demoNote false (by decide)⟩

/-- C6: the extract operations are total and convert every internal read
or parse failure into the successful empty result: a failed file read or
metadata read yields the empty result for both codecs, and a chunk
stream containing any undecodable textual chunk yields the empty result
from the PNG extractor. -/
theorem extract_never_throws :
    Server.extractNoteFromPNG none = ⟨none, false⟩
    ∧ Server.extractNoteFromJPEG none = ⟨none, false⟩
    ∧ ∀ chunks : List Chunk,
        (∃ c ∈ chunks, isTextChunk c = true ∧ (pngChunkTextDecode c.data).isOk = false) →
        Server.extractNoteFromPNGChunks chunks = ⟨none, false⟩ := by
  refine ⟨rfl, rfl, ?_⟩
  intro chunks h
  obtain ⟨e, he⟩ := serverPngScan_error chunks h (none, false)
  simp [Server.extractNoteFromPNGChunks, he]

theorem extract_never_throws_witness :
    (∃ c ∈ [poisonChunk], isTextChunk c = true ∧ (pngChunkTextDecode c.data).isOk = false)
    ∧ Server.extractNoteFromPNGChunks [poisonChunk] = ⟨none, false⟩ :=
  ⟨by decide, extract_never_throws.2.2 [poisonChunk] (by decide)⟩

/-- C7 (amended): the server codec and the CLI read the note in the
canonical priority order MemoryInkNote, image description, user comment,
XMP description; the client codec instead reads only ImageDescription
and then XPComment from the zeroth IFD and never consults the custom
MemoryInkNote field, the user comment or the XMP description. -/
theorem jpeg_priority_orders :
    (∀ f : JpegFields,
        (Server.extractNoteFromJPEGTags (serverTagsOf f)).note = specCanonicalNote f)
    ∧ (∀ f : JpegFields,
        (Cli.extractFromJPEGTags (serverTagsOf f)).note = specCanonicalNote f)
    ∧ (∀ f : JpegFields,
        (Client.extractNoteFromJPEGIfd (clientIfdOf f)).note
          = firstNonEmpty [f.imageDescription, f.xpComment]) := by
  refine ⟨fun f => rfl, fun f => rfl, fun f => ?_⟩
  have g1 : Client.ifdGet (clientIfdOf f) Client.imageDescriptionId = some f.imageDescription := rfl
  have g2 : Client.ifdGet (clientIfdOf f) Client.xpCommentId = some f.xpComment := rfl
  simp only [Client.extractNoteFromJPEGIfd, g1, g2, truthy, firstNonEmpty]
  by_cases h1 : f.imageDescription = []
  · by_cases h2 : f.xpComment = []
    · simp [h1, h2, List.isEmpty_iff]
    · simp [h1, h2, List.isEmpty_iff]
  · simp [h1, List.isEmpty_iff]

/-- C7 counterexample: on an image whose only note-bearing field is the
custom MemoryInkNote, the canonical order returns that note while the
client extractor returns nothing, so the claimed single shared order is
false for the client variant. -/
theorem client_jpeg_priority_counterexample :
    specCanonicalNote cexFields = some secretNote
    ∧ (Client.extractNoteFromJPEGIfd (clientIfdOf cexFields)).note = none := by
  constructor <;> decide

/-- C8 (amended): the server PNG embedder keeps every chunk whose type
is not one of the mInk, mIne, mInv names it filters, and the client JPEG
embedder preserves every tag outside the four it writes; the exception
against the original claim is that those four include the standard EXIF
Artist and Software tags, which the client embedder overwrites. -/
theorem foreign_metadata_preservation :
    (∀ (chunks : List Chunk) (note : Str) (enc : Bool) (out : List Chunk),
        Server.embedNoteInPNGChunks chunks note enc = .ok out →
        ∀ c ∈ chunks, ¬c.name = mInkName → ¬c.name = mIneName → ¬c.name = mInvName →
        c ∈ out)
    ∧ (∀ (zeroth : Client.Ifd) (note : Str) (enc : Bool) (k : Nat),
        ¬k ∈ [Client.imageDescriptionId, Client.xpCommentId, Client.softwareId,
          Client.artistId] →
        Client.ifdGet (Client.embedNoteInJPEGIfd zeroth note enc) k
          = Client.ifdGet zeroth k) := by
  constructor
  · intro chunks note enc out hok c hc h1 h2 h3
    unfold Server.embedNoteInPNGChunks at hok
    cases he1 : pngChunkTextEncode memoryInkNoteKw note with
    | error e => rw [he1] at hok; simp at hok
    | ok c1 =>
      cases he2 : pngChunkTextEncode memoryInkEncryptedKw
          (if enc then trueStr else falseStr) with
      | error e => rw [he1, he2] at hok; simp at hok
      | ok c2 =>
        cases he3 : pngChunkTextEncode memoryInkVersionKw versionStr with
        | error e => rw [he1, he2, he3] at hok; simp at hok
        | ok c3 =>
          rw [he1, he2, he3] at hok
          simp only [Except.ok.injEq] at hok
          rw [← hok]
          exact spliceInsert_mem _ _ _ c
            (List.mem_filter.mpr ⟨hc, by simp [h1, h2, h3]⟩)
  · intro zeroth note enc k hk
    simp only [List.mem_cons, List.not_mem_nil, or_false, not_or] at hk
    obtain ⟨hk1, hk2, hk3, hk4⟩ := hk
    unfold Client.embedNoteInJPEGIfd
    rw [ifdGet_ifdSet_ne _ _ _ _ hk4, ifdGet_ifdSet_ne _ _ _ _ hk3,
      ifdGet_ifdSet_ne _ _ _ _ hk2, ifdGet_ifdSet_ne _ _ _ _ hk1]

/-- C8 counterexample: the claim names pre-existing EXIF Artist metadata
as preserved; the client embedder overwrites Artist with its
PLAINTEXT marker. -/
theorem client_artist_overwrite_counterexample :
    Client.ifdGet (Client.embedNoteInJPEGIfd [(Client.artistId, anselArtist)] demoNote false)
        Client.artistId = some Client.plaintextMarker
    ∧ ¬Client.plaintextMarker = anselArtist := by
  constructor <;> decide

theorem foreign_metadata_preservation_witness :
    (Server.embedNoteInPNGChunks chunksW demoNote false = .ok outW
     ∧ foreignChunk ∈ chunksW ∧ ¬foreignChunk.name = mInkName
     ∧ ¬foreignChunk.name = mIneName ∧ ¬foreignChunk.name = mInvName)
    ∧ foreignChunk ∈ outW
    ∧ (¬copyrightId ∈ [Client.imageDescriptionId, Client.xpCommentId, Client.softwareId,
          Client.artistId]
       ∧ Client.ifdGet (Client.embedNoteInJPEGIfd [(copyrightId, copyrightVal)]
             demoNote false) copyrightId
         = Client.ifdGet [(copyrightId, copyrightVal)] copyrightId) :=
  ⟨⟨by decide, by decide, by decide, by decide, by decide⟩,
   foreign_metadata_preservation.1 chunksW demoNote false outW (by decide) foreignChunk
     (by decide) (by decide) (by decide) (by decide),
   by decide,
   foreign_metadata_preservation.2 [(copyrightId, copyrightVal)] demoNote false copyrightId
     (by decide)⟩

/-- C9: both key derivations are PBKDF2 with 100000 iterations and a
256-bit key, and both encryption paths key the cipher with the key
derived from the password and the salt returned in the same call. -/
theorem kdf_parameters :
    (∃ iter keyBytes, 100000 ≤ iter ∧ keyBytes * 8 = 256
      ∧ ∀ (pw : Str) (salt : Bytes),
          Server.deriveKey pw salt = pbkdf2Sync (utf8Bytes pw) salt iter keyBytes "sha256".toList)
    ∧ (∃ iter keyWords, 100000 ≤ iter ∧ keyWords * 32 = 256
      ∧ ∀ (pw : Str) (salt : Bytes), Client.deriveKey pw salt = ⟨pw, salt, iter, keyWords⟩)
    ∧ (∀ (text pw : Str) (entropy : Nat → Nat),
        (Server.encryptNote text pw entropy).encryptedData.key
          = evpKey (Server.deriveKey pw (Server.encryptNote text pw entropy).salt))
    ∧ (∀ (text pw : Str) (entropy : Nat → Nat),
        (Client.encryptNote text pw entropy).encryptedData.passphrase
          = Client.deriveKey pw (Client.encryptNote text pw entropy).salt) := by
  exact ⟨⟨100000, 32, by omega, by norm_num, fun pw salt => rfl⟩,
         ⟨100000, 8, by omega, by norm_num, fun pw salt => rfl⟩,
         fun text pw entropy => rfl, fun text pw entropy => rfl⟩

/-- C2 (amended): the server-side cipher round-trips — decrypting the
encryptNote output with the same password yields the plaintext, and any
other password makes authenticated decryption fail rather than return a
plaintext; the client-side decryptNote does not satisfy the failure
half (see the counterexample). -/
theorem server_decrypt_roundtrip_and_auth :
    ∀ (text password other : Str) (entropy : Nat → Nat),
      Server.decryptNote ⟨(Server.encryptNote text password entropy).encryptedData,
          (Server.encryptNote text password entropy).salt,
          (Server.encryptNote text password entropy).iv,
          (Server.encryptNote text password entropy).authTag, password⟩ = .ok text
      ∧ (¬other = password →
          Server.decryptNote ⟨(Server.encryptNote text password entropy).encryptedData,
              (Server.encryptNote text password entropy).salt,
              (Server.encryptNote text password entropy).iv,
              (Server.encryptNote text password entropy).authTag, other⟩
            = .error .DecryptionFailed) := by
  intro text password other entropy
  constructor
  · simp [Server.decryptNote, Server.encryptNote]
  · intro hne
    have hcond : ¬(Server.encryptNote text password entropy).authTag
        = ⟨evpKey (Server.deriveKey other (Server.encryptNote text password entropy).salt),
           evpIv (Server.deriveKey other (Server.encryptNote text password entropy).salt),
           memoryinkAad, (Server.encryptNote text password entropy).encryptedData⟩ := by
      intro heq
      have hk := congrArg GcmTag.key heq
      simp only [Server.encryptNote, evpKey, List.cons.injEq, true_and] at hk
      exact hne (deriveKey_password_inj other password _ hk.symm)
    simp only [Server.decryptNote]
    rw [if_neg hcond]

theorem server_decrypt_roundtrip_and_auth_witness :
    ¬demoOther = demoPassword
    ∧ (Server.decryptNote ⟨(Server.encryptNote demoText demoPassword entropyA).encryptedData,
          (Server.encryptNote demoText demoPassword entropyA).salt,
          (Server.encryptNote demoText demoPassword entropyA).iv,
          (Server.encryptNote demoText demoPassword entropyA).authTag, demoPassword⟩
        = .ok demoText
       ∧ Server.decryptNote ⟨(Server.encryptNote demoText demoPassword entropyA).encryptedData,
          (Server.encryptNote demoText demoPassword entropyA).salt,
          (Server.encryptNote demoText demoPassword entropyA).iv,
          (Server.encryptNote demoText demoPassword entropyA).authTag, demoOther⟩
        = .error .DecryptionFailed) :=
  ⟨by decide,
   (server_decrypt_roundtrip_and_auth demoText demoPassword demoOther entropyA).1,
   (server_decrypt_roundtrip_and_auth demoText demoPassword demoOther entropyA).2 (by decide)⟩

/-- C2 counterexample: the client-side decryptNote is a total function
into strings — with a wrong password it returns a garbage (here empty)
string instead of failing with DecryptionFailed, because its CBC mode
carries no authentication tag at all. -/
theorem client_decrypt_wrong_password_counterexample :
    ¬demoOther = demoPassword
    ∧ Client.decryptNote (Client.encryptNote demoText demoPassword entropyA).encryptedData
        demoOther (Client.encryptNote demoText demoPassword entropyA).salt
        (Client.encryptNote demoText demoPassword entropyA).iv = []
    ∧ ¬([] : Str) = demoText := by
  refine ⟨by decide, by decide, by decide⟩

/-- When the note content is Latin-1 without NUL, the embed succeeds and
produces exactly the filter-and-splice result. -/
theorem embedNoteInPNGChunks_ok (chunks : List Chunk) (s : Str) (enc : Bool)
    (hs : Latin1NoNul s) :
    Server.embedNoteInPNGChunks chunks s enc
      = .ok (spliceInsert
          (chunks.filter (fun c => ¬(c.name = mInkName ∨ c.name = mIneName ∨ c.name = mInvName)))
          (findIndexJs (fun c => c.name = iendName)
            (chunks.filter (fun c => ¬(c.name = mInkName ∨ c.name = mIneName ∨ c.name = mInvName))))
          [mkTextChunk memoryInkNoteKw s,
           mkTextChunk memoryInkEncryptedKw (if enc then trueStr else falseStr),
           mkTextChunk memoryInkVersionKw versionStr]) := by
  unfold Server.embedNoteInPNGChunks
  rw [encode_reserved_ok memoryInkNoteKw s (Or.inl rfl) hs,
    encode_reserved_ok memoryInkEncryptedKw (if enc then trueStr else falseStr)
      (Or.inr (Or.inl rfl)) (by cases enc <;> decide),
    encode_reserved_ok memoryInkVersionKw versionStr (Or.inr (Or.inr rfl)) (by decide)]

/-- C1 (amended): in a well-formed PNG (all chunks before a final IEND,
every pre-existing textual chunk decodable), embedding a note whose
characters are all Latin-1 and non-NUL with the encrypted flag false and
extracting immediately yields exactly that note and a false flag.  The
Latin-1 restriction is forced by the counterexample: png-chunk-text
rejects any character above 0xFF, so embedding a multi-byte UTF-8 note
fails with EmbedFailed instead of round-tripping. -/
theorem png_roundtrip_latin1 :
    ∀ (body : List Chunk) (iendC : Chunk) (s : Str),
      iendC.name = iendName →
      (∀ c ∈ body, ¬c.name = iendName) →
      AllTextDecode body →
      Latin1NoNul s →
      (Server.embedNoteInPNGChunks (body ++ [iendC]) s false).map
          Server.extractNoteFromPNGChunks
        = .ok ⟨some s, false⟩ := by
  intro body iendC s hlast hbody hdec hs
  obtain ⟨iname, idata⟩ := iendC
  have hname : iname = iendName := hlast
  subst hname
  have hfilter : (body ++ [(⟨iendName, idata⟩ : Chunk)]).filter
      (fun c => ¬(c.name = mInkName ∨ c.name = mIneName ∨ c.name = mInvName))
      = body.filter (fun c => ¬(c.name = mInkName ∨ c.name = mIneName ∨ c.name = mInvName))
        ++ [(⟨iendName, idata⟩ : Chunk)] := by
    rw [List.filter_append]
    congr 1
  have hidx : findIndexJs (fun c => c.name = iendName)
      (body.filter (fun c => ¬(c.name = mInkName ∨ c.name = mIneName ∨ c.name = mInvName))
        ++ [(⟨iendName, idata⟩ : Chunk)])
      = ((body.filter (fun c => ¬(c.name = mInkName ∨ c.name = mIneName ∨ c.name = mInvName))).length : Int) := by
    apply findIndexJs_append_single
    · intro x hx
      simp [hbody x (List.mem_filter.mp hx).1]
    · simp
  have hembed := embedNoteInPNGChunks_ok (body ++ [(⟨iendName, idata⟩ : Chunk)]) s false hs
  rw [hfilter, hidx, spliceInsert_at_length] at hembed
  rw [show ((if (false = true) then trueStr else falseStr) : Str) = falseStr from rfl] at hembed
  have hdecoded : pngChunkTextDecode (strBytes memoryInkNoteKw ++ 0 :: strBytes s)
      = .ok ⟨memoryInkNoteKw, s⟩ := decode_mkTextChunk memoryInkNoteKw s (by decide) hs
  have hn1 : chunkKeywordText memoryInkNoteKw (mkTextChunk memoryInkNoteKw s) = some s := by
    simp [chunkKeywordText, hdecoded, isTextChunk, mkTextChunk]
  have hn2 : chunkKeywordText memoryInkNoteKw (mkTextChunk memoryInkEncryptedKw falseStr)
      = none := by decide
  have hn3 : chunkKeywordText memoryInkNoteKw (mkTextChunk memoryInkVersionKw versionStr)
      = none := by decide
  have hn4 : chunkKeywordText memoryInkNoteKw ⟨iendName, idata⟩ = none := rfl
  have he1 : chunkKeywordText memoryInkEncryptedKw (mkTextChunk memoryInkNoteKw s) = none := by
    simp [chunkKeywordText, hdecoded, isTextChunk, mkTextChunk, memoryInkKw_note_ne_enc]
  have he2 : chunkKeywordText memoryInkEncryptedKw (mkTextChunk memoryInkEncryptedKw falseStr)
      = some falseStr := by decide
  have he3 : chunkKeywordText memoryInkEncryptedKw (mkTextChunk memoryInkVersionKw versionStr)
      = none := by decide
  have he4 : chunkKeywordText memoryInkEncryptedKw ⟨iendName, idata⟩ = none := rfl
  set fb := body.filter (fun c => ¬(c.name = mInkName ∨ c.name = mIneName ∨ c.name = mInvName))
    with hfb
  have hdecOut : AllTextDecode ((fb ++ [mkTextChunk memoryInkNoteKw s,
      mkTextChunk memoryInkEncryptedKw falseStr, mkTextChunk memoryInkVersionKw versionStr])
      ++ [(⟨iendName, idata⟩ : Chunk)]) := by
    intro c hc ht
    rcases List.mem_append.mp hc with hc1 | hc2
    · rcases List.mem_append.mp hc1 with hcf | hct
      · exact hdec c (List.mem_filter.mp hcf).1 ht
      · simp only [List.mem_cons, List.not_mem_nil, or_false] at hct
        rcases hct with rfl | rfl | rfl
        · show (pngChunkTextDecode (strBytes memoryInkNoteKw ++ 0 :: strBytes s)).isOk = true
          rw [hdecoded]
          rfl
        · decide
        · decide
    · simp only [List.mem_cons, List.not_mem_nil, or_false] at hc2
      subst hc2
      exact absurd ht (by simp [isTextChunk, iendName, tEXtName, iTXtName])
  have hscan := serverPngScan_eq _ hdecOut none false
  have hnt : noteTexts ((fb ++ [mkTextChunk memoryInkNoteKw s,
      mkTextChunk memoryInkEncryptedKw falseStr, mkTextChunk memoryInkVersionKw versionStr])
      ++ [(⟨iendName, idata⟩ : Chunk)]) = noteTexts fb ++ [s] := by
    simp [noteTexts, List.filterMap_append, List.filterMap_cons, hn1, hn2, hn3, hn4]
  have het : encTexts ((fb ++ [mkTextChunk memoryInkNoteKw s,
      mkTextChunk memoryInkEncryptedKw falseStr, mkTextChunk memoryInkVersionKw versionStr])
      ++ [(⟨iendName, idata⟩ : Chunk)]) = encTexts fb ++ [falseStr] := by
    simp [encTexts, List.filterMap_append, List.filterMap_cons, he1, he2, he3, he4]
  rw [hembed]
  simp only [Except.map]
  unfold Server.extractNoteFromPNGChunks
  rw [hscan]
  have hfne : (decide (falseStr = trueStr)) = false := by decide
  simp only [hnt, het]
  rw [lastOr_eq_getLast?, lastEnc_eq_getLast?, List.getLast?_concat, List.getLast?_concat]
  simp [hfne]

/-- C1 counterexample: the claim includes notes with multi-byte UTF-8
characters; embedding such a note into a PNG fails with EmbedFailed
(png-chunk-text rejects characters above 0xFF), so extraction after
embedding cannot return the note. -/
theorem png_roundtrip_multibyte_counterexample :
    (Server.embedNoteInPNGChunks minimalPng ("中".toList) false).map
        Server.extractNoteFromPNGChunks
      = .error .EmbedFailed := by decide

theorem png_roundtrip_latin1_witness :
    ((⟨iendName, []⟩ : Chunk).name = iendName
     ∧ (∀ c ∈ [(⟨"IHDR".toList, []⟩ : Chunk), ⟨"IDAT".toList, []⟩], ¬c.name = iendName)
     ∧ AllTextDecode [(⟨"IHDR".toList, []⟩ : Chunk), ⟨"IDAT".toList, []⟩]
     ∧ Latin1NoNul demoNote)
    ∧ (Server.embedNoteInPNGChunks
          ([(⟨"IHDR".toList, []⟩ : Chunk), ⟨"IDAT".toList, []⟩] ++ [⟨iendName, []⟩])
          demoNote false).map Server.extractNoteFromPNGChunks
        = .ok ⟨some demoNote, false⟩ :=
  ⟨⟨by decide, by decide, by decide, by decide⟩,
   png_roundtrip_latin1 [⟨"IHDR".toList, []⟩, ⟨"IDAT".toList, []⟩] ⟨iendName, []⟩ demoNote
     (by decide) (by decide) (by decide) (by decide)⟩

/-- C10 (amended): over a PNG chunk stream whose textual chunks all
decode, each of the three extractor variants captures the last
MemoryInkNote text in stream order (each matching chunk overwrites the
previous candidate, with no early stop) and the flag of the last
MemoryInkEncrypted chunk; the decodability hypothesis is forced by the
counterexample, since a single undecodable textual chunk collapses the
whole result to the empty one. -/
theorem png_last_chunk_wins :
    ∀ chunks : List Chunk, AllTextDecode chunks →
      Server.extractNoteFromPNGChunks chunks
          = ⟨lastOr (noteTexts chunks) none, lastEnc (encTexts chunks) false⟩
      ∧ Client.extractNoteFromPNGChunks chunks
          = ⟨lastOr (noteTexts chunks) none, lastEnc (encTexts chunks) false⟩
      ∧ Cli.extractFromPNGChunks chunks
          = ⟨lastOr (noteTexts chunks) none, lastEnc (encTexts chunks) false,
             lastOr (verTexts chunks) none⟩
      ∧ lastOr (noteTexts chunks) none = (noteTexts chunks).getLast? := by
  intro chunks h
  have hs := serverPngScan_eq chunks h none false
  have hc := cliPngScan_eq chunks h none false none
  refine ⟨?_, ?_, ?_, ?_⟩
  · unfold Server.extractNoteFromPNGChunks
    rw [hs]
  · unfold Client.extractNoteFromPNGChunks
    rw [clientPngScan_eq_server, hs]
  · unfold Cli.extractFromPNGChunks
    rw [hc]
  · rw [lastOr_eq_getLast?]
    cases hg : (noteTexts chunks).getLast? <;> rfl

/-- Stream used in the C10 witness: two MemoryInkNote chunks and two
MemoryInkEncrypted chunks, all decodable. -/
def dupChunks : List Chunk :=
  [mkTextChunk memoryInkNoteKw ("a".toList), mkTextChunk memoryInkEncryptedKw trueStr,
   mkTextChunk memoryInkNoteKw ("b".toList), mkTextChunk memoryInkEncryptedKw falseStr]

theorem png_last_chunk_wins_witness :
    AllTextDecode dupChunks
    ∧ (Server.extractNoteFromPNGChunks dupChunks
          = ⟨lastOr (noteTexts dupChunks) none, lastEnc (encTexts dupChunks) false⟩
       ∧ Client.extractNoteFromPNGChunks dupChunks
          = ⟨lastOr (noteTexts dupChunks) none, lastEnc (encTexts dupChunks) false⟩
       ∧ Cli.extractFromPNGChunks dupChunks
          = ⟨lastOr (noteTexts dupChunks) none, lastEnc (encTexts dupChunks) false,
             lastOr (verTexts dupChunks) none⟩
       ∧ lastOr (noteTexts dupChunks) none = (noteTexts dupChunks).getLast?) :=
  ⟨by decide, png_last_chunk_wins dupChunks (by decide)⟩

/-- Chunk in iTXt layout (keyword, NUL, then the compression-flag byte
0): png-chunk-text decode raises on the NUL in the text region, as it
does for every real iTXt chunk. -/
def poisonITXt : Chunk :=
  ⟨iTXtName, strBytes memoryInkNoteKw ++ 0 :: 0 :: strBytes ("x".toList)⟩

/-- Stream with more than one decodable MemoryInkNote tEXt chunk plus an
iTXt chunk that fails to decode. -/
def c10Stream : List Chunk :=
  [poisonITXt, mkTextChunk memoryInkNoteKw ("a".toList), mkTextChunk memoryInkNoteKw ("b".toList)]

/-- C10 counterexample: this stream contains more than one textual chunk
with the MemoryInkNote keyword, yet extraction returns no note at all
rather than the text of the last such chunk, because the undecodable
iTXt chunk aborts the walk and the catch collapses the result. -/
theorem png_poison_chunk_counterexample :
    (noteTexts c10Stream).length = 2
    ∧ (noteTexts c10Stream).getLast? = some ("b".toList)
    ∧ (Server.extractNoteFromPNGChunks c10Stream).note = none := by
  refine ⟨by decide, by decide, by decide⟩
